import Mathlib

/-
Shallow embedding of the distributed ARS trainer
(python/ray/rllib/ars/ars.py): the shared noise table, worker rollouts,
and the coordinator's aggregation / update step.  Machine floats are
modelled as rationals; the numpy random stream is modelled as an
abstract stream of naturals; the environment and policy evaluation are
modelled as opaque deterministic step functions, following the spec's
black-box treatment of both.
-/

/-- Pointwise addition of two flat weight vectors (numpy `+` on arrays). -/
def vecAdd (a b : List ℚ) : List ℚ := List.zipWith (· + ·) a b

/-- Pointwise subtraction of two flat weight vectors (numpy `-` on arrays). -/
def vecSub (a b : List ℚ) : List ℚ := List.zipWith (· - ·) a b

/-- Scalar times vector (numpy scalar broadcast multiply). -/
def vecSmul (c : ℚ) (v : List ℚ) : List ℚ := v.map (fun x => c * x)

/-- The all-zero vector of a given dimension (numpy `zeros`). -/
def vecZero (dim : ℕ) : List ℚ := List.replicate dim 0

/-- Embedding of `SharedNoiseTable.get(i, dim) = self.noise[i:i + dim]`:
a python slice, which truncates at the end of the buffer instead of
raising. -/
def noiseGet (noise : List ℚ) (i dim : ℕ) : List ℚ := (noise.drop i).take dim

/-- Embedding of `SharedNoiseTable.sample_index(dim) =
rg.randint(0, len(noise) - dim + 1)`.  The numpy random stream is
abstracted as a raw natural draw; `randint(0, k)` yields a value in
`[0, k - 1]`, which the embedding realizes as `raw % k`. -/
def sampleIndex (raw len dim : ℕ) : ℕ := raw % (len - dim + 1)

/-- Error type for the NoiseTable range contract of the spec. -/
inductive RangeErr where
  | rangeError
deriving DecidableEq

/-- Modelled from the spec: the NoiseTable contract
`get(offset, dim) -> sequence[float]` fails with `RangeError` if
`offset + dim > length`.  This contract function is absent from the
source (`SharedNoiseTable.get` is a bare slice); it is stated here only
to compare the spec's words with the code's behaviour. -/
def noiseGetContract (noise : List ℚ) (i dim : ℕ) : Except RangeErr (List ℚ) :=
  if noise.length < i + dim then Except.error RangeErr.rangeError
  else Except.ok (noiseGet noise i dim)

/-- A deterministic model of one environment plus the policy driving it:
`stepFn` folds `policy.compute(ob)` and `env.step(action)` into a single
opaque transition returning (next state, reward, done), as the spec
treats both as black boxes. -/
structure EnvModel (S : Type) where
  reset : S
  stepFn : S → S × ℚ × Bool

/-- Loop body of `Worker.rollout`: for `i in range(rollout_length)`,
step, count the step, accumulate `reward - shift`, break on `done`. -/
def rolloutAux {S : Type} (f : S → S × ℚ × Bool) (shift : ℚ) :
    ℕ → S → ℚ → ℕ → ℚ × ℕ
  | 0, _, total, steps => (total, steps)
  | n + 1, s, total, steps =>
    let t := f s
    if t.2.2 then (total + (t.2.1 - shift), steps + 1)
    else rolloutAux f shift n t.1 (total + (t.2.1 - shift)) (steps + 1)

/-- Embedding of `Worker.rollout(shift, rollout_length)`: reset the
environment, then run the loop with zero accumulators. -/
def rollout {S : Type} (env : EnvModel S) (shift : ℚ) (len : ℕ) : ℚ × ℕ :=
  rolloutAux env.stepFn shift len env.reset 0 0

/-- The (reward, done) pairs of the steps actually taken by the rollout
loop: at most `n` entries, cut short after the first `done`. -/
def envTrace {S : Type} (f : S → S × ℚ × Bool) : ℕ → S → List (ℚ × Bool)
  | 0, _ => []
  | n + 1, s =>
    let t := f s
    (t.2.1, t.2.2) :: (if t.2.2 then [] else envTrace f n t.1)

/-- A worker's environment/policy pair where the weight vector and the
`update_filter` flag are still free: `stepWith w uf` is the opaque
transition obtained after `policy.set_weights(w)` and
`policy.update_filter = uf`.  `timestepLimit` is `env.spec.timestep_limit`. -/
structure WorkerEnv (S : Type) where
  reset : S
  stepWith : List ℚ → Bool → S → S × ℚ × Bool
  timestepLimit : ℕ

/-- Specialize a worker environment to fixed weights and filter flag. -/
def envOf {S : Type} (we : WorkerEnv S) (w : List ℚ) (uf : Bool) : EnvModel S :=
  ⟨we.reset, we.stepWith w uf⟩

/-- Result dictionary of `Worker.do_rollouts`: `deltas_idx` holds noise
offsets (or the `-1` sentinel for evaluation trials), `rollout_rewards`
holds a single reward for evaluation trials and a (pos, neg) pair for
training trials, `steps` the summed environment steps. -/
structure RolloutBatch where
  deltas_idx : List ℤ
  rollout_rewards : List (Sum ℚ (ℚ × ℚ))
  steps : ℕ

/-- Embedding of `Worker.do_rollouts(w_policy, num_rollouts, shift,
evaluate)`.  `rng` is the worker's private random stream (trial `i` of a
training batch consumes draw `rng i` for `sample_index`); evaluation
trials draw nothing.  Each training trial draws an offset, forms
`delta = delta_std * noise[idx:idx+dim]`, and runs the antithetic pair
`w + delta` / `w - delta` with filter updates enabled and the given
shift. -/
def doRollouts {S : Type} (we : WorkerEnv S) (noise : List ℚ) (deltaStd : ℚ)
    (rolloutLen : ℕ) (w : List ℚ) (shift : ℚ) (evaluate : Bool) :
    (ℕ → ℕ) → ℕ → RolloutBatch
  | _, 0 => ⟨[], [], 0⟩
  | rng, n + 1 =>
    if evaluate then
      let r := rollout (envOf we w false) 0 we.timestepLimit
      let rest := doRollouts we noise deltaStd rolloutLen w shift evaluate rng n
      ⟨(-1) :: rest.deltas_idx, Sum.inl r.1 :: rest.rollout_rewards, rest.steps⟩
    else
      let idx := sampleIndex (rng 0) noise.length w.length
      let delta := vecSmul deltaStd (noiseGet noise idx w.length)
      let pos := rollout (envOf we (vecAdd w delta) true) shift rolloutLen
      let neg := rollout (envOf we (vecSub w delta) true) shift rolloutLen
      let rest := doRollouts we noise deltaStd rolloutLen w shift evaluate
        (fun j => rng (j + 1)) n
      ⟨(idx : ℤ) :: rest.deltas_idx, Sum.inr (pos.1, neg.1) :: rest.rollout_rewards,
        pos.2 + neg.2 + rest.steps⟩

/-- Embedding of `np.percentile(l, q)` with the default linear
interpolation: with `s` the ascending sort of `l` and
`p = q * (len - 1) / 100`, the value is
`s[floor p] + (p - floor p) * (s[floor p + 1] - s[floor p])`. -/
def percentile (l : List ℚ) (q : ℚ) : ℚ :=
  let s := List.insertionSort (· ≤ ·) l
  let p := q * ((l.length : ℚ) - 1) / 100
  let i := (⌊p⌋).toNat
  let lo := s.getD i 0
  let hi := s.getD (i + 1) lo
  lo + (p - (i : ℚ)) * (hi - lo)

/-- Embedding of `max_rewards = np.max(rollout_rewards, axis=1)`:
the per-trial maximum of the (pos, neg) reward pair. -/
def maxRewards (rs : List (ℚ × ℚ)) : List ℚ := rs.map (fun p => max p.1 p.2)

/-- Embedding of the clamp
`if deltas_used > num_deltas: deltas_used = num_deltas`. -/
def clampDU (du nd : ℕ) : ℕ := if nd < du then nd else du

/-- The percentile rank used for top-k selection:
`100 * (1 - deltas_used / num_deltas)` after clamping. -/
def selectQ (du nd : ℕ) : ℚ := 100 * (1 - (clampDU du nd : ℚ) / (nd : ℚ))

/-- Embedding of
`idx = np.arange(max_rewards.size)[max_rewards >= np.percentile(...)]`:
the positions of the trials retained by top-k selection. -/
def retainedIdx (rs : List (ℚ × ℚ)) (du nd : ℕ) : List ℕ :=
  (List.range rs.length).filter
    (fun i => percentile (maxRewards rs) (selectQ du nd) ≤ (maxRewards rs).getD i 0)

/-- The flattened reward matrix (numpy treats the k×2 reward array as
2k scalars when computing its standard deviation). -/
def flatRewards (rs : List (ℚ × ℚ)) : List ℚ := rs.flatMap (fun p => [p.1, p.2])

/-- Arithmetic mean of a list of rationals (0 for the empty list). -/
def meanQ (l : List ℚ) : ℚ := l.sum / (l.length : ℚ)

/-- The square of `np.std(rollout_rewards)`: the population variance of
the flattened retained rewards.  The standard deviation itself is the
real square root of this value, which the embedding passes around as an
explicit abstracted divisor. -/
def rewardVariance (rs : List (ℚ × ℚ)) : ℚ :=
  meanQ ((flatRewards rs).map (fun x => (x - meanQ (flatRewards rs)) ^ 2))

/-- Embedding of `rollout_rewards /= np.std(rollout_rewards)` with the
standard deviation `sigma` passed explicitly: the division is applied
unconditionally, with no guard on `sigma = 0`. -/
def normalizeStep (rs : List (ℚ × ℚ)) (sigma : ℚ) : List (ℚ × ℚ) :=
  rs.map (fun p => (p.1 / sigma, p.2 / sigma))

/-- Plain weighted sum of vectors: the value
`sum_i w_i * v_i` that the batched aggregation is meant to compute. -/
def weightedSum (pairs : List (ℚ × List ℚ)) (dim : ℕ) : List ℚ :=
  pairs.foldr (fun p acc => vecAdd (vecSmul p.1 p.2) acc) (vecZero dim)

/-- Modelled from the spec: `batched_weighted_sum` (from
`ray.rllib.es.utils`, not under `src/`), which accumulates
`sum_i w_i * v_i` over batches of `bs` items at a time and also counts
the items summed.  `fuel` bounds the number of batches (each batch
consumes at least one item, so `pairs.length` batches always suffice). -/
def bwsFuel (bs dim : ℕ) : ℕ → List (ℚ × List ℚ) → List ℚ × ℕ
  | 0, _ => (vecZero dim, 0)
  | fuel + 1, pairs =>
    if pairs = [] then (vecZero dim, 0)
    else
      let rest := bwsFuel bs dim fuel (pairs.drop bs)
      (vecAdd (weightedSum (pairs.take bs) dim) rest.1,
        rest.2 + (pairs.take bs).length)

/-- Modelled from the spec: the batched weighted sum over all items. -/
def batchedWeightedSum (bs : ℕ) (pairs : List (ℚ × List ℚ)) (dim : ℕ) :
    List ℚ × ℕ :=
  bwsFuel bs dim pairs.length pairs

/-- Embedding of the gradient step of `aggregate_rollouts`
(lines 334-338): `g_hat, count = batched_weighted_sum(pos - neg,
(noise.get(idx, dim) for idx in deltas_idx), batch_size=500);
g_hat /= deltas_idx.size` over the retained trials
`(offset, (reward_pos, reward_neg))`. -/
def gHatStep (noise : List ℚ) (dim : ℕ) (retained : List (ℕ × ℚ × ℚ)) : List ℚ :=
  let pairs := (retained.map (fun t => t.2.1 - t.2.2)).zip
    (retained.map (fun t => noiseGet noise t.1 dim))
  ((batchedWeightedSum 500 pairs dim).1).map
    (fun x => x / (retained.length : ℚ))

/-- Result dictionary of a training-mode (`evaluate=False`) worker
batch as consumed by `aggregate_rollouts`: every entry of
`rollout_rewards` is a (pos, neg) pair and every stored offset is a
natural index into the noise buffer. -/
structure TrainBatch where
  deltas_idx : List ℕ
  rollout_rewards : List (ℚ × ℚ)
  steps : ℕ

/-- The coordinator state mutated by `aggregate_rollouts` /
`train_step`: the canonical weights, the replicated noise buffer, the
`num_deltas` / `deltas_used` / `step_size` configuration, and the
running timestep counter. -/
structure AgentState where
  w_policy : List ℚ
  noise : List ℚ
  num_deltas : ℕ
  deltas_used : ℕ
  timesteps : ℕ
  step_size : ℚ

/-- Errors raised inside the aggregation phase:  `emptyBatch` is the
`ValueError` of `rollout_rewards.max()` on an empty collection. -/
inductive AggErr where
  | emptyBatch
deriving DecidableEq

/-- Embedding of `ARSAgent.aggregate_rollouts` in training mode
(`evaluate=False`), parameterized by the already-collected worker
results (`results_one`, `results_two`; the distributed join is external
to the algorithm) and by `sqrtFn`, the real-valued square root used by
`np.std`, abstracted as an oracle on the rational variance.  The
returned state carries the mutations performed before any raise point
(`timesteps`), plus the `deltas_used` clamp on the success path; the
`Except` value is the gradient estimate or the raised error. -/
def aggregateRollouts (sqrtFn : ℚ → ℚ) (st : AgentState)
    (resultsOne resultsTwo : List TrainBatch) :
    AgentState × Except AggErr (List ℚ) :=
  let results := resultsOne ++ resultsTwo
  let st1 := { st with timesteps := st.timesteps + (results.map (fun r => r.steps)).sum }
  let deltasIdx := results.flatMap (fun r => r.deltas_idx)
  let rewards := results.flatMap (fun r => r.rollout_rewards)
  if rewards = [] then (st1, Except.error AggErr.emptyBatch)
  else
    let st2 := { st1 with deltas_used := clampDU st1.deltas_used st1.num_deltas }
    let keep := retainedIdx rewards st1.deltas_used st1.num_deltas
    let keptIdx := keep.map (fun i => deltasIdx.getD i 0)
    let keptRewards := keep.map (fun i => rewards.getD i (0, 0))
    let sigma := sqrtFn (rewardVariance keptRewards)
    let normalized := normalizeStep keptRewards sigma
    (st2, Except.ok (gHatStep st.noise st.w_policy.length (keptIdx.zip normalized)))

/-- Modelled from the spec: the SGD optimizer step
(`optimizers.SGD._compute_step`, not under `src/`), which per the spec
maps the gradient estimate to `learning_rate * gradient_estimate`. -/
def computeStep (lr : ℚ) (g : List ℚ) : List ℚ := vecSmul lr g

/-- Embedding of `ARSAgent.train_step`: run the aggregation, and only
on success subtract the optimizer step from the canonical weights; an
aggregation error propagates with the weights untouched. -/
def trainStep (sqrtFn : ℚ → ℚ) (st : AgentState)
    (resultsOne resultsTwo : List TrainBatch) : AgentState × Option AggErr :=
  let r := aggregateRollouts sqrtFn st resultsOne resultsTwo
  match r.2 with
  | Except.error e => (r.1, some e)
  | Except.ok g =>
    ({ r.1 with w_policy := vecSub r.1.w_policy (computeStep r.1.step_size g) }, none)

/-- Number of trials assigned to worker `i` by the dispatch of
`aggregate_rollouts` (lines 277-289): every worker receives
`int(num_deltas / num_workers)` trials in the first round and the first
`num_deltas % num_workers` workers one extra trial in the second. -/
def trialsAssignedTo (D W i : ℕ) : ℕ := D / W + (if i < D % W then 1 else 0)

/-- Number of batch-requests dispatched to worker `i`: one request in
the first round (`rollout_ids_one` covers every worker), plus a second
single-trial request (`rollout_ids_two`) for the first
`num_deltas % num_workers` workers. -/
def batchRequestsTo (D W i : ℕ) : ℕ := 1 + (if i < D % W then 1 else 0)

/-- A tiny concrete environment used by the witnesses: state counts the
steps, reward equals the state, terminal at state 2. -/
def demoEnv : EnvModel ℕ := ⟨0, fun s => (s + 1, (s : ℚ), s == 2)⟩

/-- A tiny concrete coordinator state used by the witnesses. -/
def demoState : AgentState :=
  ⟨[1, 2], [1, 2, 3, 4], 2, 2, 0, 1 / 100⟩

/-- Claim C5 counterexample: with a 3-element buffer, `get(2, 3)` has
`offset + dim > length`, yet the code returns the truncated slice `[3]`
(the spec contract would demand a `RangeError` here) — the claim that
`get` fails rather than returning a value is false on the code. -/
theorem noise_get_out_of_range_returns_value :
    noiseGet [1, 2, 3] 2 3 = [3] ∧
    noiseGetContract [1, 2, 3] 2 3 = Except.error RangeErr.rangeError := by
  constructor <;> rfl

/-- Claim C5 (amended): for `offset + dim > length` (offset within the
buffer), `NoiseTable.get` raises nothing and returns the truncated
slice `noise[offset:]`, of length `length - offset < dim`; the buffer
is never modified (`get` is a pure read). -/
theorem noise_get_truncates (noise : List ℚ) (i dim : ℕ)
    (hi : i ≤ noise.length) (hod : noise.length < i + dim) :
    noiseGet noise i dim = noise.drop i ∧
    (noiseGet noise i dim).length = noise.length - i := by
  have hlen : (noise.drop i).length = noise.length - i := List.length_drop i noise
  have hle : (noise.drop i).length ≤ dim := by omega
  have heq : noiseGet noise i dim = noise.drop i := by
    unfold noiseGet
    exact List.take_of_length_le hle
  exact ⟨heq, by rw [heq, hlen]⟩

/-- Witness for the amended claim C5 at the counterexample input. -/
theorem noise_get_truncates_witness :
    (2 ≤ ([1, 2, 3] : List ℚ).length ∧ ([1, 2, 3] : List ℚ).length < 2 + 3) ∧
    (noiseGet [1, 2, 3] 2 3 = ([1, 2, 3] : List ℚ).drop 2 ∧
      (noiseGet [1, 2, 3] 2 3).length = ([1, 2, 3] : List ℚ).length - 2) :=
  ⟨⟨by decide, by decide⟩, noise_get_truncates [1, 2, 3] 2 3 (by decide) (by decide)⟩

/-- Claim C7: for `1 ≤ dim ≤ length`, `sample_index(dim)` lands in the
closed interval `[0, length - dim]` (the lower bound is inherent to ℕ). -/
theorem noise_sample_index_range (raw len dim : ℕ)
    (h1 : 1 ≤ dim) (h2 : dim ≤ len) :
    sampleIndex raw len dim ≤ len - dim := by
  have h : raw % (len - dim + 1) < len - dim + 1 := Nat.mod_lt _ (by omega)
  unfold sampleIndex
  omega

/-- Witness for claim C7 at a concrete draw. -/
theorem noise_sample_index_range_witness :
    (1 ≤ 2 ∧ 2 ≤ 4) ∧ sampleIndex 7 4 2 ≤ 4 - 2 :=
  ⟨⟨by decide, by decide⟩, noise_sample_index_range 7 4 2 (by decide) (by decide)⟩

/-- Claim C8 counterexample: with `num_deltas = 3` and
`num_workers = 2`, worker 0 receives two batch-requests (one from
`rollout_ids_one` and a second single-trial request from
`rollout_ids_two`), so the dispatch is not one batch-request per
worker. -/
theorem dispatch_second_request_counterexample : batchRequestsTo 3 2 0 = 2 := by
  decide

/-- Claim C8 (amended): the dispatch partitions `num_deltas` trials as
evenly as possible — per-worker counts sum to exactly `num_deltas` and
differ pairwise by at most one — using at most two batch-requests per
worker (a second, single-trial request goes to each of the first
`num_deltas % num_workers` workers). -/
theorem dispatch_partition_even (D W : ℕ) (hD : 1 ≤ D) (hW : 1 ≤ W) :
    (Finset.range W).sum (trialsAssignedTo D W) = D ∧
    (∀ i, i < W → ∀ j, j < W →
      trialsAssignedTo D W i ≤ trialsAssignedTo D W j + 1) ∧
    (∀ i, i < W → batchRequestsTo D W i ≤ 2) := by
  refine ⟨?_, ?_, ?_⟩
  · have hmod : D % W < W := Nat.mod_lt _ (by omega)
    have hsplit : (Finset.range W).sum (trialsAssignedTo D W)
        = (Finset.range W).sum (fun _ => D / W)
          + (Finset.range W).sum (fun i => if i < D % W then 1 else 0) := by
      rw [← Finset.sum_add_distrib]
      rfl
    have hconst : (Finset.range W).sum (fun _ => D / W) = W * (D / W) := by
      rw [Finset.sum_const, Finset.card_range, smul_eq_mul]
    have hfilter : (Finset.range W).filter (fun i => i < D % W) = Finset.range (D % W) := by
      ext i
      simp only [Finset.mem_filter, Finset.mem_range]
      omega
    have hind : (Finset.range W).sum (fun i => if i < D % W then (1 : ℕ) else 0)
        = D % W := by
      rw [Finset.sum_boole, hfilter, Finset.card_range]
      exact Nat.cast_id _
    rw [hsplit, hconst, hind]
    exact Nat.div_add_mod D W
  · intro i _ j _
    unfold trialsAssignedTo
    split <;> split <;> omega
  · intro i _
    unfold batchRequestsTo
    split <;> omega

/-- Witness for the amended claim C8 at `num_deltas = 3`,
`num_workers = 2`. -/
theorem dispatch_partition_even_witness :
    (1 ≤ 3 ∧ 1 ≤ 2) ∧
    ((Finset.range 2).sum (trialsAssignedTo 3 2) = 3 ∧
     (∀ i, i < 2 → ∀ j, j < 2 →
       trialsAssignedTo 3 2 i ≤ trialsAssignedTo 3 2 j + 1) ∧
     (∀ i, i < 2 → batchRequestsTo 3 2 i ≤ 2)) :=
  ⟨⟨by decide, by decide⟩, dispatch_partition_even 3 2 (by decide) (by decide)⟩

/-- The rollout loop, started with accumulators `total`/`steps`, adds
the shifted rewards and the length of the trace it actually walks. -/
theorem rolloutAux_trace {S : Type} (f : S → S × ℚ × Bool) (shift : ℚ) :
    ∀ (n : ℕ) (s : S) (total : ℚ) (steps : ℕ),
      rolloutAux f shift n s total steps
        = (total + ((envTrace f n s).map (fun p => p.1 - shift)).sum,
           steps + (envTrace f n s).length) := by
  intro n
  induction n with
  | zero =>
    intro s total steps
    simp [rolloutAux, envTrace]
  | succ n ih =>
    intro s total steps
    rcases hfs : f s with ⟨s1, r, d⟩
    cases d
    · simp only [rolloutAux, envTrace, hfs]
      rw [ih]
      simp [Prod.ext_iff]
      constructor
      · ring
      · omega
    · simp [rolloutAux, envTrace, hfs]

/-- The rollout trace never exceeds the step bound. -/
theorem envTrace_length_le {S : Type} (f : S → S × ℚ × Bool) :
    ∀ (n : ℕ) (s : S), (envTrace f n s).length ≤ n := by
  intro n
  induction n with
  | zero => intro s; simp [envTrace]
  | succ n ih =>
    intro s
    rcases hfs : f s with ⟨s1, r, d⟩
    cases d
    · simp only [envTrace, hfs]
      simp [ih s1]
    · simp [envTrace, hfs]

/-- Only the final step of a rollout trace can carry the terminal
signal: the loop breaks as soon as `done` is seen. -/
theorem envTrace_done_last {S : Type} (f : S → S × ℚ × Bool) :
    ∀ (n : ℕ) (s : S) (i : ℕ), i + 1 < (envTrace f n s).length →
      ((envTrace f n s).getD i (0, true)).2 = false := by
  intro n
  induction n with
  | zero => intro s i hi; simp [envTrace] at hi
  | succ n ih =>
    intro s i hi
    rcases hfs : f s with ⟨s1, r, d⟩
    cases d
    · simp only [envTrace, hfs] at hi ⊢
      simp at hi ⊢
      cases i with
      | zero => simp
      | succ j =>
        have h2 := ih s1 j (by omega)
        simpa using h2
    · simp only [envTrace, hfs] at hi
      simp at hi

/-- Claim C9: `rollout(shift, max_steps)` starts from the environment
reset state, walks at most `max_steps` steps, stops early at the first
terminal signal (only the last trace entry can be `done`), and returns
the sum of `reward - shift` over the steps taken together with the
number of steps taken. -/
theorem worker_rollout_spec {S : Type} (env : EnvModel S) (shift : ℚ)
    (L : ℕ) (hL : 1 ≤ L) :
    rollout env shift L
      = (((envTrace env.stepFn L env.reset).map (fun p => p.1 - shift)).sum,
         (envTrace env.stepFn L env.reset).length)
    ∧ (envTrace env.stepFn L env.reset).length ≤ L
    ∧ ∀ i, i + 1 < (envTrace env.stepFn L env.reset).length →
        ((envTrace env.stepFn L env.reset).getD i (0, true)).2 = false := by
  refine ⟨?_, envTrace_length_le _ _ _, fun i hi => envTrace_done_last _ _ _ i hi⟩
  unfold rollout
  rw [rolloutAux_trace]
  simp

/-- Witness for claim C9 on a concrete three-step environment. -/
theorem worker_rollout_spec_witness :
    1 ≤ 5 ∧
    (rollout demoEnv 1 5
        = (((envTrace demoEnv.stepFn 5 demoEnv.reset).map (fun p => p.1 - 1)).sum,
           (envTrace demoEnv.stepFn 5 demoEnv.reset).length)
      ∧ (envTrace demoEnv.stepFn 5 demoEnv.reset).length ≤ 5
      ∧ ∀ i, i + 1 < (envTrace demoEnv.stepFn 5 demoEnv.reset).length →
          ((envTrace demoEnv.stepFn 5 demoEnv.reset).getD i (0, true)).2 = false) :=
  ⟨by decide, worker_rollout_spec demoEnv 1 5 (by decide)⟩

/-- Claim C6: in a training batch (`evaluate=False`), trial `i` draws
the fresh offset `sample_index` from the worker's random stream, records
it, and records the reward pair of one rollout at `w + delta` and one at
`w - delta`, where `delta = delta_std * noise[offset:offset+dim]` is
reconstructed from the stored offset alone; both rollouts use the
configured shift and run with filter updates enabled, so the perturbed
weight vectors are a function of (base weights, offset, delta_std)
only. -/
theorem worker_do_rollouts_antithetic {S : Type} (we : WorkerEnv S)
    (noise : List ℚ) (deltaStd : ℚ) (L : ℕ) (w : List ℚ) (shift : ℚ) :
    ∀ (n : ℕ) (rng : ℕ → ℕ),
      (doRollouts we noise deltaStd L w shift false rng n).deltas_idx
        = (List.range n).map
            (fun i => ((sampleIndex (rng i) noise.length w.length : ℕ) : ℤ))
      ∧ (doRollouts we noise deltaStd L w shift false rng n).rollout_rewards
        = (List.range n).map (fun i =>
            Sum.inr
              ((rollout (envOf we (vecAdd w (vecSmul deltaStd (noiseGet noise
                  (sampleIndex (rng i) noise.length w.length) w.length))) true)
                  shift L).1,
               (rollout (envOf we (vecSub w (vecSmul deltaStd (noiseGet noise
                  (sampleIndex (rng i) noise.length w.length) w.length))) true)
                  shift L).1)) := by
  intro n
  induction n with
  | zero =>
    intro rng
    constructor <;> simp [doRollouts]
  | succ n ih =>
    intro rng
    obtain ⟨ih1, ih2⟩ := ih (fun j => rng (j + 1))
    constructor
    · simp [doRollouts, ih1, List.range_succ_eq_map, List.map_map, Function.comp]
    · simp [doRollouts, ih2, List.range_succ_eq_map, List.map_map, Function.comp]

/-- Linear interpolation with a coefficient in [0, 1] stays below the
larger endpoint. -/
theorem interp_le_max (lo hi f : ℚ) (h0 : 0 ≤ f) (h1 : f ≤ 1) :
    lo + f * (hi - lo) ≤ max lo hi := by
  rcases le_total lo hi with h | h
  · have hb : lo + f * (hi - lo) ≤ hi := by nlinarith
    exact le_trans hb (le_max_right _ _)
  · have hb : lo + f * (hi - lo) ≤ lo := by nlinarith
    exact le_trans hb (le_max_left _ _)

/-- In an ascending sorted list every member is bounded by the last
element. -/
theorem sorted_le_getLast :
    ∀ (s : List ℚ), s.Sorted (· ≤ ·) → ∀ (hs : s ≠ []) (x : ℚ), x ∈ s →
      x ≤ s.getLast hs := by
  intro s
  induction s with
  | nil => intro _ hs; exact absurd rfl hs
  | cons a t ih =>
    intro hsort hne x hx
    cases t with
    | nil =>
      simp only [List.mem_singleton] at hx
      subst hx
      simp [List.getLast]
    | cons b t2 =>
      have hne2 : b :: t2 ≠ [] := List.cons_ne_nil _ _
      have hgl : (a :: b :: t2).getLast hne = (b :: t2).getLast hne2 :=
        List.getLast_cons hne2
      rw [hgl]
      rcases List.mem_cons.mp hx with h | h
      · subst h
        exact (List.sorted_cons.mp hsort).1 _ (List.getLast_mem hne2)
      · exact ih (List.sorted_cons.mp hsort).2 hne2 x h

/-- In an ascending sorted list the head bounds every member from
below. -/
theorem sorted_getD_zero_le (s : List ℚ) (hs : s.Sorted (· ≤ ·))
    (x : ℚ) (hx : x ∈ s) : s.getD 0 0 ≤ x := by
  cases s with
  | nil => simp at hx
  | cons a t =>
    simp only [List.getD_cons_zero]
    rcases List.mem_cons.mp hx with h | h
    · exact le_of_eq h.symm
    · exact (List.sorted_cons.mp hs).1 x h

/-- For a percentile rank within [0, 100] the interpolated percentile of
a nonempty list never exceeds some member of the list. -/
theorem percentile_le_exists (l : List ℚ) (hl : l ≠ []) (q : ℚ)
    (hq0 : 0 ≤ q) (hq1 : q ≤ 100) : ∃ x ∈ l, percentile l q ≤ x := by
  have hperm : List.Perm (List.insertionSort (· ≤ ·) l) l := List.perm_insertionSort _ l
  have hsort : (List.insertionSort (· ≤ ·) l).Sorted (· ≤ ·) :=
    List.sorted_insertionSort _ l
  set s := List.insertionSort (· ≤ ·) l with hsdef
  have hlen : s.length = l.length := hperm.length_eq
  have hn : 1 ≤ l.length := List.length_pos.mpr hl
  have hsne : s ≠ [] := by
    intro h
    rw [h] at hlen
    simp at hlen
    omega
  refine ⟨s.getLast hsne, hperm.mem_iff.mp (List.getLast_mem hsne), ?_⟩
  set p := q * ((l.length : ℚ) - 1) / 100 with hpdef
  have hone : (1 : ℚ) ≤ (l.length : ℚ) := by exact_mod_cast hn
  have hp0 : 0 ≤ p := by
    apply div_nonneg _ (by norm_num)
    apply mul_nonneg hq0
    linarith
  have hpn : p ≤ (l.length : ℚ) - 1 := by
    rw [hpdef, div_le_iff (by norm_num : (0:ℚ) < 100)]
    nlinarith
  set i := (⌊p⌋).toNat with hidef
  have hfloor0 : (0 : ℤ) ≤ ⌊p⌋ := Int.floor_nonneg.mpr hp0
  have hcast : (i : ℚ) = ((⌊p⌋ : ℤ) : ℚ) := by
    rw [hidef]
    exact_mod_cast congrArg (fun z : ℤ => (z : ℚ)) (Int.toNat_of_nonneg hfloor0)
  have hip : (i : ℚ) ≤ p := by
    rw [hcast]
    exact Int.floor_le p
  have hfr0 : 0 ≤ p - (i : ℚ) := by linarith
  have hfr1 : p - (i : ℚ) ≤ 1 := by
    have hlt := Int.lt_floor_add_one p
    rw [hcast]
    push_cast
    push_cast at hlt
    linarith
  have hi_lt : i < s.length := by
    rw [hlen]
    have h1 : (i : ℚ) ≤ (l.length : ℚ) - 1 := le_trans hip hpn
    have h2 : (i : ℚ) + 1 ≤ (l.length : ℚ) := by linarith
    have h3 : i + 1 ≤ l.length := by exact_mod_cast h2
    omega
  have hM := List.getLast_mem hsne
  have hlo_le : s.getD i 0 ≤ s.getLast hsne := by
    apply sorted_le_getLast s hsort hsne
    rw [List.getD_eq_getElem s 0 hi_lt]
    exact List.getElem_mem hi_lt
  have hhi_le : s.getD (i + 1) (s.getD i 0) ≤ s.getLast hsne := by
    by_cases hi1 : i + 1 < s.length
    · apply sorted_le_getLast s hsort hsne
      rw [List.getD_eq_getElem s _ hi1]
      exact List.getElem_mem hi1
    · rw [List.getD_eq_default s _ (by omega)]
      exact hlo_le
  have hunfold : percentile l q
      = s.getD i 0 + (p - (i : ℚ)) * (s.getD (i + 1) (s.getD i 0) - s.getD i 0) := by
    rw [percentile, hsdef, hpdef, hidef]
  rw [hunfold]
  exact le_trans (interp_le_max _ _ _ hfr0 hfr1) (max_le hlo_le hhi_le)

/-- The 0th percentile of a nonempty list bounds every member from
below (it is the head of the sorted list). -/
theorem percentile_zero_le (l : List ℚ) (hl : l ≠ []) (x : ℚ) (hx : x ∈ l) :
    percentile l 0 ≤ x := by
  have hperm : List.Perm (List.insertionSort (· ≤ ·) l) l := List.perm_insertionSort _ l
  have hsort : (List.insertionSort (· ≤ ·) l).Sorted (· ≤ ·) :=
    List.sorted_insertionSort _ l
  have hunfold : percentile l 0 = (List.insertionSort (· ≤ ·) l).getD 0 0 := by
    simp [percentile]
  rw [hunfold]
  exact sorted_getD_zero_le _ hsort _ (hperm.mem_iff.mpr hx)

/-- The per-trial maximum list evaluated at an in-range position. -/
theorem maxRewards_getD (rs : List (ℚ × ℚ)) (i : ℕ) (hi : i < rs.length) :
    (maxRewards rs).getD i 0 = max (rs.getD i (0, 0)).1 (rs.getD i (0, 0)).2 := by
  have hi2 : i < (maxRewards rs).length := by simpa [maxRewards] using hi
  rw [List.getD_eq_getElem _ _ hi2, List.getD_eq_getElem _ _ hi]
  simp [maxRewards]

/-- Claim C2: with `deltas_used` clamped to `num_deltas`, a trial is
retained by top-k selection iff its `max(reward_pos, reward_neg)` is at
least the `100 * (1 - deltas_used/num_deltas)`-th percentile of the
per-trial maxima (inclusive comparison, ties at the boundary kept);
with `deltas_used = num_deltas` every trial is kept. -/
theorem ars_topk_selection_spec (rs : List (ℚ × ℚ)) (du nd : ℕ) (hnd : 1 ≤ nd) :
    (∀ i, i ∈ retainedIdx rs du nd ↔
      (i < rs.length ∧
        percentile (maxRewards rs) (100 * (1 - (clampDU du nd : ℚ) / (nd : ℚ)))
          ≤ max (rs.getD i (0, 0)).1 (rs.getD i (0, 0)).2))
    ∧ (du = nd → retainedIdx rs du nd = List.range rs.length) := by
  constructor
  · intro i
    simp only [retainedIdx, selectQ, List.mem_filter, List.mem_range,
      decide_eq_true_eq]
    constructor
    · rintro ⟨hi, hp⟩
      exact ⟨hi, by rwa [maxRewards_getD rs i hi] at hp⟩
    · rintro ⟨hi, hp⟩
      exact ⟨hi, by rwa [maxRewards_getD rs i hi]⟩
  · intro hdu
    by_cases hrs : rs = []
    · subst hrs
      rfl
    · have hq : selectQ du nd = 0 := by
        unfold selectQ clampDU
        rw [hdu]
        rw [if_neg (lt_irrefl nd)]
        have hne : (nd : ℚ) ≠ 0 := Nat.cast_ne_zero.mpr (by omega)
        field_simp
      unfold retainedIdx
      rw [hq]
      apply List.filter_eq_self.mpr
      intro i hi_mem
      rw [decide_eq_true_eq]
      have hi : i < rs.length := List.mem_range.mp hi_mem
      have hi2 : i < (maxRewards rs).length := by simpa [maxRewards] using hi
      apply percentile_zero_le
      · simp [maxRewards, hrs]
      · rw [List.getD_eq_getElem _ _ hi2]
        exact List.getElem_mem hi2

/-- Witness for claim C2 on a concrete two-trial batch with
`deltas_used = num_deltas = 2`. -/
theorem ars_topk_selection_spec_witness :
    1 ≤ 2 ∧
    ((∀ i, i ∈ retainedIdx [((3 : ℚ), 1), (0, 2)] 2 2 ↔
      (i < ([((3 : ℚ), 1), (0, 2)] : List (ℚ × ℚ)).length ∧
        percentile (maxRewards [((3 : ℚ), 1), (0, 2)])
            (100 * (1 - (clampDU 2 2 : ℚ) / ((2 : ℕ) : ℚ)))
          ≤ max (([((3 : ℚ), 1), (0, 2)] : List (ℚ × ℚ)).getD i (0, 0)).1
              (([((3 : ℚ), 1), (0, 2)] : List (ℚ × ℚ)).getD i (0, 0)).2))
    ∧ (2 = 2 → retainedIdx [((3 : ℚ), 1), (0, 2)] 2 2
        = List.range ([((3 : ℚ), 1), (0, 2)] : List (ℚ × ℚ)).length)) :=
  ⟨by decide, ars_topk_selection_spec [((3 : ℚ), 1), (0, 2)] 2 2 (by decide)⟩

/-- Claim C10: whenever at least one trial result was collected (and
`num_deltas ≥ 1`), top-k selection retains at least one trial — the
maximum of the per-trial maxima always meets the inclusive percentile
threshold, so an empty retained set is unreachable. -/
theorem topk_retains_nonempty (rs : List (ℚ × ℚ)) (du nd : ℕ)
    (hrs : rs ≠ []) (hnd : 1 ≤ nd) : retainedIdx rs du nd ≠ [] := by
  have hmne : maxRewards rs ≠ [] := by simp [maxRewards, hrs]
  have hpos : (0 : ℚ) < (nd : ℚ) := by exact_mod_cast Nat.lt_of_lt_of_le Nat.zero_lt_one hnd
  have hq0 : 0 ≤ selectQ du nd := by
    unfold selectQ
    have hle : clampDU du nd ≤ nd := by unfold clampDU; split <;> omega
    have hc : (clampDU du nd : ℚ) / (nd : ℚ) ≤ 1 := by
      rw [div_le_one hpos]
      exact_mod_cast hle
    linarith
  have hq1 : selectQ du nd ≤ 100 := by
    unfold selectQ
    have hge : 0 ≤ (clampDU du nd : ℚ) / (nd : ℚ) := by positivity
    linarith
  obtain ⟨x, hx_mem, hx_le⟩ := percentile_le_exists (maxRewards rs) hmne _ hq0 hq1
  obtain ⟨i, hi, hget⟩ := List.getElem_of_mem hx_mem
  apply List.ne_nil_of_mem (a := i)
  simp only [retainedIdx, List.mem_filter, List.mem_range, decide_eq_true_eq]
  have hi2 : i < rs.length := by simpa [maxRewards] using hi
  refine ⟨hi2, ?_⟩
  rw [List.getD_eq_getElem _ _ hi, hget]
  exact hx_le

/-- Witness for claim C10 on a concrete two-trial batch. -/
theorem topk_retains_nonempty_witness :
    (([((1 : ℚ), 2), (0, 0)] : List (ℚ × ℚ)) ≠ [] ∧ 1 ≤ 2) ∧
    retainedIdx [((1 : ℚ), 2), (0, 0)] 1 2 ≠ [] :=
  ⟨⟨by decide, by decide⟩,
    topk_retains_nonempty [((1 : ℚ), 2), (0, 0)] 1 2 (by decide) (by decide)⟩

/-- Pointwise vector addition is associative (also under zipWith
truncation). -/
theorem vecAdd_assoc : ∀ a b c : List ℚ, vecAdd (vecAdd a b) c = vecAdd a (vecAdd b c) := by
  intro a
  induction a with
  | nil => intro b c; simp [vecAdd]
  | cons x xs ih =>
    intro b c
    cases b with
    | nil => simp [vecAdd]
    | cons y ys =>
      cases c with
      | nil => simp [vecAdd]
      | cons z zs =>
        simp only [vecAdd, List.zipWith_cons_cons]
        rw [add_assoc]
        exact congrArg _ (ih ys zs)

/-- The zero vector is a left identity for vectors of the right
dimension. -/
theorem vecAdd_zero_left : ∀ (v : List ℚ) (dim : ℕ), v.length = dim →
    vecAdd (vecZero dim) v = v := by
  intro v
  induction v with
  | nil => intro dim h; subst h; rfl
  | cons x xs ih =>
    intro dim h
    subst h
    simp only [vecZero, List.length_cons, List.replicate_succ, vecAdd,
      List.zipWith_cons_cons, zero_add]
    exact congrArg _ (ih xs.length rfl)

/-- Length of a pointwise vector sum. -/
theorem length_vecAdd (a b : List ℚ) :
    (vecAdd a b).length = min a.length b.length := by
  simp [vecAdd]

/-- A weighted sum of dimension-`dim` vectors has dimension `dim`. -/
theorem weightedSum_length : ∀ (pairs : List (ℚ × List ℚ)) (dim : ℕ),
    (∀ p ∈ pairs, p.2.length = dim) → (weightedSum pairs dim).length = dim := by
  intro pairs
  induction pairs with
  | nil => intro dim _; simp [weightedSum, vecZero]
  | cons p ps ih =>
    intro dim hall
    have hp : p.2.length = dim := hall p (by simp)
    have hps := ih dim (fun q hq => hall q (by simp [hq]))
    have h1 : (vecSmul p.1 p.2).length = dim := by simp [vecSmul, hp]
    simp only [weightedSum, List.foldr_cons] at hps ⊢
    rw [length_vecAdd, h1, hps, Nat.min_self]

/-- The weighted sum splits over list concatenation (for vectors of a
uniform dimension). -/
theorem weightedSum_append : ∀ (a b : List (ℚ × List ℚ)) (dim : ℕ),
    (∀ p ∈ a, p.2.length = dim) → (∀ p ∈ b, p.2.length = dim) →
    weightedSum (a ++ b) dim = vecAdd (weightedSum a dim) (weightedSum b dim) := by
  intro a
  induction a with
  | nil =>
    intro b dim _ hb
    simp only [List.nil_append, weightedSum, List.foldr_nil]
    exact (vecAdd_zero_left _ _ (weightedSum_length b dim hb)).symm
  | cons p ps ih =>
    intro b dim ha hb
    have hps : ∀ q ∈ ps, q.2.length = dim := fun q hq => ha q (by simp [hq])
    simp only [List.cons_append, weightedSum, List.foldr_cons] at *
    rw [ih b dim hps hb, ← vecAdd_assoc]

/-- The fueled batched weighted sum computes the plain weighted sum and
counts all items, provided the fuel covers the list and batches are
nonempty. -/
theorem bwsFuel_eq : ∀ (fuel bs dim : ℕ) (pairs : List (ℚ × List ℚ)),
    bs ≠ 0 → pairs.length ≤ fuel → (∀ p ∈ pairs, p.2.length = dim) →
    bwsFuel bs dim fuel pairs = (weightedSum pairs dim, pairs.length) := by
  intro fuel
  induction fuel with
  | zero =>
    intro bs dim pairs _ hlen _
    have : pairs = [] := List.eq_nil_of_length_eq_zero (by omega)
    subst this
    simp [bwsFuel, weightedSum]
  | succ fuel ih =>
    intro bs dim pairs hbs hlen hall
    by_cases hp : pairs = []
    · subst hp
      simp [bwsFuel, weightedSum]
    · have hlp : 1 ≤ pairs.length := List.length_pos.mpr hp
      have hdroplen : (pairs.drop bs).length ≤ fuel := by
        rw [List.length_drop]
        omega
      have hdropall : ∀ p ∈ pairs.drop bs, p.2.length = dim :=
        fun p hq => hall p (List.drop_subset _ _ hq)
      have htakeall : ∀ p ∈ pairs.take bs, p.2.length = dim :=
        fun p hq => hall p (List.take_subset _ _ hq)
      simp only [bwsFuel, if_neg hp]
      rw [ih bs dim (pairs.drop bs) hbs hdroplen hdropall]
      have hsplit : weightedSum (pairs.take bs ++ pairs.drop bs) dim
          = vecAdd (weightedSum (pairs.take bs) dim) (weightedSum (pairs.drop bs) dim) :=
        weightedSum_append _ _ dim htakeall hdropall
      rw [List.take_append_drop] at hsplit
      refine Prod.ext hsplit.symm ?_
      simp only [List.length_take, List.length_drop]
      omega

/-- Claim C1: for every retained trial set whose stored offsets address
the noise buffer in range, the gradient estimate of
`aggregate_rollouts` — the batched weighted sum with batch size 500
divided by `deltas_idx.size` — equals the plain sum over retained
trials of `(reward_pos - reward_neg) * noise[offset:offset+dim]`
divided by the number of retained trials. -/
theorem ars_gHat_eq_weighted_mean (noise : List ℚ) (dim : ℕ)
    (retained : List (ℕ × ℚ × ℚ))
    (hr : ∀ t ∈ retained, t.1 + dim ≤ noise.length) :
    gHatStep noise dim retained
      = (weightedSum
            (retained.map (fun t => (t.2.1 - t.2.2, noiseGet noise t.1 dim))) dim).map
          (fun x => x / (retained.length : ℚ)) := by
  unfold gHatStep batchedWeightedSum
  rw [List.zip_map']
  dsimp only
  have hall : ∀ p ∈ retained.map (fun t => (t.2.1 - t.2.2, noiseGet noise t.1 dim)),
      p.2.length = dim := by
    intro p hp
    obtain ⟨t, ht, rfl⟩ := List.mem_map.mp hp
    simp only [noiseGet, List.length_take, List.length_drop]
    have := hr t ht
    omega
  rw [bwsFuel_eq _ 500 dim _ (by omega) (le_refl _) hall]

/-- Witness for claim C1 on a concrete retained set of two trials over
a four-entry noise buffer. -/
theorem ars_gHat_eq_weighted_mean_witness :
    (∀ t ∈ ([(0, (3 : ℚ), 1), (2, 2, 5)] : List (ℕ × ℚ × ℚ)),
      t.1 + 2 ≤ ([1, 2, 3, 4] : List ℚ).length) ∧
    gHatStep [1, 2, 3, 4] 2 [(0, (3 : ℚ), 1), (2, 2, 5)]
      = (weightedSum
            (([(0, (3 : ℚ), 1), (2, 2, 5)] : List (ℕ × ℚ × ℚ)).map
              (fun t => (t.2.1 - t.2.2, noiseGet [1, 2, 3, 4] t.1 2))) 2).map
          (fun x => x / (([(0, (3 : ℚ), 1), (2, 2, 5)] : List (ℕ × ℚ × ℚ)).length : ℚ)) :=
  ⟨by decide, ars_gHat_eq_weighted_mean [1, 2, 3, 4] 2 _ (by decide)⟩

/-- Claim C3 (code bug): at a retained set whose rewards are all equal
— e.g. both trials scoring (1, 1) — the normalization divisor
`np.std(rollout_rewards)` is exactly zero (the variance is 0), and the
normalization step divides by it anyway: there is no guard and no error
path in `rollout_rewards /= np.std(rollout_rewards)`.  (In the rational
embedding division by zero collapses to 0; in numpy it silently
produces `nan` rewards and a `nan` gradient.) -/
theorem ars_normalization_divides_by_zero_std :
    rewardVariance [((1 : ℚ), 1), (1, 1)] = 0 ∧
    normalizeStep [((1 : ℚ), 1), (1, 1)] 0 = [(0, 0), (0, 0)] := by
  constructor
  · norm_num [rewardVariance, meanQ, flatRewards]
  · simp [normalizeStep]

/-- Claim C4: if the aggregation phase raises, `train_step` propagates
the error and the canonical weight vector is untouched — the weight
update happens only after `aggregate_rollouts` returns successfully. -/
theorem ars_train_step_atomic_on_error (sqrtFn : ℚ → ℚ) (st : AgentState)
    (r1 r2 : List TrainBatch) (e : AggErr)
    (herr : (aggregateRollouts sqrtFn st r1 r2).2 = Except.error e) :
    (trainStep sqrtFn st r1 r2).1.w_policy = st.w_policy ∧
    (trainStep sqrtFn st r1 r2).2 = some e := by
  have hw : (aggregateRollouts sqrtFn st r1 r2).1.w_policy = st.w_policy := by
    unfold aggregateRollouts
    dsimp only
    split
    · rfl
    · rfl
  have ht : trainStep sqrtFn st r1 r2 = ((aggregateRollouts sqrtFn st r1 r2).1, some e) := by
    unfold trainStep
    simp only [herr]
  rw [ht]
  exact ⟨hw, rfl⟩

/-- Witness for claim C4: with no collected worker results the
aggregation raises (the `.max()` of an empty reward collection), and
the weights are unchanged. -/
theorem ars_train_step_atomic_on_error_witness :
    (aggregateRollouts (fun _ => 0) demoState [] []).2
        = Except.error AggErr.emptyBatch ∧
    ((trainStep (fun _ => 0) demoState [] []).1.w_policy = demoState.w_policy ∧
     (trainStep (fun _ => 0) demoState [] []).2 = some AggErr.emptyBatch) :=
  ⟨rfl, ars_train_step_atomic_on_error (fun _ => 0) demoState [] [] AggErr.emptyBatch rfl⟩
